import Mathlib

/-!
Verification of the mockhouse metadata-extraction pipeline
(src/mockhouse/packaging_utils.py) against its natural-language
specification.

The development shallowly embeds:
  * the module-level schema tables of the external `packaging.metadata`
    library (version 24.x), together with the monkey-patch that
    packaging_utils.py applies to them at import time;
  * the email-header lexer fragment of Python's `email.parser`
    (compat32 policy) that `packaging.metadata.parse_email` relies on,
    restricted to plain ASCII header blocks (no MIME, no RFC 2047
    encoded words, no surrogate-escape handling: none of those arise
    for the byte strings considered here);
  * `packaging.metadata.parse_email`, `Metadata.from_raw`,
    `Metadata.from_email` (including the mutation of the `_raw`
    dictionary performed by the `_Validator.__get__` descriptor);
  * the repository's own `parse_metadata_file_content` and
    `wheel_to_metadata_dict`.

Byte strings are modelled as Lean `String`s (the inputs of interest are
ASCII, so UTF-8 decoding is the identity).  Python dictionaries are
modelled as insertion-ordered association lists with replace-on-rewrite
insertion, which matches CPython dict semantics for the operations used.
-/

namespace Mockhouse

/-- Space or horizontal tab, the linear whitespace recognised by the
email header lexer for value folding and continuation lines. -/
def isLWS (c : Char) : Bool := c == ' ' || c == '\t'

/-- Lower-case a string character by character; models Python
`str.lower` on the ASCII inputs in scope. -/
def lowerStr (s : String) : String := ⟨s.data.map Char.toLower⟩

/-- Python `str.strip()`: drop leading and trailing whitespace. -/
def stripStr (s : String) : String :=
  ⟨(((s.data.dropWhile Char.isWhitespace).reverse.dropWhile Char.isWhitespace).reverse)⟩

/-- Python `str.endswith(suffix)`. -/
def endsWithStr (s suffix : String) : Bool := suffix.data.isSuffixOf s.data

/-- Split a character list at newline characters, keeping empty lines;
models Python's universal line splitting for LF-terminated text. -/
def splitLinesAux : List Char → List Char → List (List Char)
  | [], acc => [acc.reverse]
  | c :: cs, acc =>
    if c == '\n' then acc.reverse :: splitLinesAux cs []
    else splitLinesAux cs (c :: acc)

/-- Lines of a string, as character lists. -/
def splitLines (s : String) : List (List Char) := splitLinesAux s.data []

/-- Split a header line at its first colon, if any. -/
def splitAtColon : List Char → Option (List Char × List Char)
  | [] => none
  | c :: cs =>
    if c == ':' then some ([], cs)
    else (splitAtColon cs).map (fun p => (c :: p.1, p.2))

/-- Join lines back with newlines (inverse of line splitting). -/
def joinLines : List (List Char) → List Char
  | [] => []
  | [l] => l
  | l :: ls => l ++ '\n' :: joinLines ls

/-- A parsed RFC 822 style message: ordered header fields plus body.
This is the view of `email.message.Message` that
`packaging.metadata.parse_email` consumes (`parsed.keys()`,
`parsed.get_all(...)`, `msg.get_payload()`). -/
structure EmailMessage where
  headers : List (String × String)
  payload : String
  deriving Repr, DecidableEq

/-- Append a continuation line to the value of the most recently seen
header field (email header folding: the raw line, leading whitespace
included, is joined with a newline). -/
def extendLastHeader (hs : List (String × String)) (line : List Char) :
    List (String × String) :=
  match hs with
  | [] => []
  | [h] => [(h.1, h.2 ++ "\n" ++ ⟨line⟩)]
  | h :: rest => h :: extendLastHeader rest line

/-- Header-section scanner of Python's `email.feedparser` (compat32),
restricted to plain ASCII text: a blank line ends the header section;
a line starting with linear whitespace folds into the previous header
(a leading continuation line with no previous header is dropped, as
the feedparser does); a non-blank line without a colon ends the header
section and belongs, with everything after it, to the payload. -/
def lexHeaders : List (List Char) → List (String × String) →
    List (String × String) × List (List Char)
  | [], acc => (acc, [])
  | line :: rest, acc =>
    if line.isEmpty then (acc, rest)
    else if isLWS (line.headD ' ') then
      match acc with
      | [] => lexHeaders rest acc
      | _ :: _ => lexHeaders rest (extendLastHeader acc line)
    else
      match splitAtColon line with
      | some (n, v) =>
        lexHeaders rest (acc ++ [(⟨n⟩, ⟨v.dropWhile isLWS⟩)])
      | none => (acc, line :: rest)

/-- Parse metadata text into headers and payload; models
`email.parser.BytesParser(policy=compat32).parsebytes` on the ASCII
header blocks in scope. -/
def parseEmailText (s : String) : EmailMessage :=
  let (hs, body) := lexHeaders (splitLines s) []
  ⟨hs, ⟨joinLines body⟩⟩

/-- Python `msg.get_all(name)` after lower-casing: all values of the
headers whose lower-cased name equals the given (lower-case) name, in
order of appearance. -/
def getAll (msg : EmailMessage) (name : String) : List String :=
  (msg.headers.filter (fun h => lowerStr h.1 == name)).map (·.2)

/-- Distinct lower-cased header names, in first-occurrence order; a
deterministic stand-in for the `frozenset(parsed.keys())` iteration of
`parse_email` (all facts proved below are independent of that order). -/
def dedupKeysLower (hs : List (String × String)) : List String :=
  hs.foldl
    (fun acc h =>
      let n := lowerStr h.1
      if acc.contains n then acc else acc ++ [n])
    []

/-! ## Schema tables of `packaging.metadata` and the import-time patch -/

/-- The module-level schema tables of `packaging.metadata` that both
`parse_email` and the repository's patch read and write:
`_STRING_FIELDS`, `_LIST_FIELDS`, `_DICT_FIELDS`,
`_EMAIL_TO_RAW_MAPPING` and `_RAW_TO_EMAIL_MAPPING`. -/
structure SchemaTables where
  stringFields : List String
  listFields : List String
  dictFields : List String
  emailToRaw : List (String × String)
  rawToEmail : List (String × String)
  deriving Repr, DecidableEq

/-- The `_STRING_FIELDS` set of `packaging.metadata`. -/
def baseStringFields : List String :=
  ["author", "author_email", "description", "description_content_type",
   "download_url", "home_page", "license", "license_expression",
   "maintainer", "maintainer_email", "metadata_version", "name",
   "requires_python", "summary", "version"]

/-- The `_LIST_FIELDS` set of `packaging.metadata` before the patch. -/
def baseListFields : List String :=
  ["classifiers", "dynamic", "license_files", "obsoletes",
   "obsoletes_dist", "platforms", "provides", "provides_dist",
   "provides_extra", "requires", "requires_dist", "requires_external",
   "supported_platforms"]

/-- The `_EMAIL_TO_RAW_MAPPING` table of `packaging.metadata` before
the patch. -/
def baseEmailToRaw : List (String × String) :=
  [("author", "author"), ("author-email", "author_email"),
   ("classifier", "classifiers"), ("description", "description"),
   ("description-content-type", "description_content_type"),
   ("download-url", "download_url"), ("dynamic", "dynamic"),
   ("home-page", "home_page"), ("keywords", "keywords"),
   ("license", "license"), ("license-expression", "license_expression"),
   ("license-file", "license_files"), ("maintainer", "maintainer"),
   ("maintainer-email", "maintainer_email"),
   ("metadata-version", "metadata_version"), ("name", "name"),
   ("obsoletes", "obsoletes"), ("obsoletes-dist", "obsoletes_dist"),
   ("platform", "platforms"), ("project-url", "project_urls"),
   ("provides", "provides"), ("provides-dist", "provides_dist"),
   ("provides-extra", "provides_extra"), ("requires", "requires"),
   ("requires-dist", "requires_dist"),
   ("requires-external", "requires_external"),
   ("requires-python", "requires_python"), ("summary", "summary"),
   ("supported-platform", "supported_platforms"), ("version", "version")]

/-- The tables of `packaging.metadata` as shipped, before
`mockhouse.packaging_utils` is imported (`_RAW_TO_EMAIL_MAPPING` is the
key-value inverse of `_EMAIL_TO_RAW_MAPPING`). -/
def baselineTables : SchemaTables where
  stringFields := baseStringFields
  listFields := baseListFields
  dictFields := ["project_urls"]
  emailToRaw := baseEmailToRaw
  rawToEmail := baseEmailToRaw.map (fun p => (p.2, p.1))

/-- Effect of the import-time monkey patch in packaging_utils.py:
`pmeta._LIST_FIELDS.add("variants")`,
`pmeta._EMAIL_TO_RAW_MAPPING["variant"] = "variants"`,
`pmeta._RAW_TO_EMAIL_MAPPING["variants"] = "variant"`. -/
def applyImportPatch (t : SchemaTables) : SchemaTables :=
  { t with
    listFields := t.listFields ++ ["variants"]
    emailToRaw := t.emailToRaw ++ [("variant", "variants")]
    rawToEmail := t.rawToEmail ++ [("variants", "variant")] }

/-- The process-wide tables after `mockhouse.packaging_utils` has been
imported; every later call in the process reads these. -/
def importedTables : SchemaTables := applyImportPatch baselineTables

/-- Association-list lookup (first match), modelling `dict.get` /
`dict[...]` on Python dictionaries whose insertion discipline keeps
keys unique. -/
def assocFind (m : List (String × String)) (k : String) : Option String :=
  match m with
  | [] => none
  | p :: rest => if p.1 == k then some p.2 else assocFind rest k

/-! ## Raw metadata values and the raw mapping -/

/-- A value of the raw metadata dictionary: a string, an ordered list
of strings, or a mapping of string pairs, depending on the field's
declared cardinality (`RawMetadata` in `packaging.metadata`). -/
inductive RawValue where
  | str (s : String)
  | list (xs : List String)
  | dict (kvs : List (String × String))
  deriving Repr, DecidableEq

/-- The raw metadata mapping: insertion-ordered field-name-to-value
association list with unique keys. -/
abbrev RawMap := List (String × RawValue)

/-- Lookup in a raw mapping (`raw.get(name)`). -/
def rawLookup (m : RawMap) (k : String) : Option RawValue :=
  match m with
  | [] => none
  | p :: rest => if p.1 == k then some p.2 else rawLookup rest k

/-- Python dict assignment `m[k] = v`: replace in place if the key is
present (CPython keeps the original position), append otherwise. -/
def rawInsert (m : RawMap) (k : String) (v : RawValue) : RawMap :=
  match m with
  | [] => [(k, v)]
  | p :: rest => if p.1 == k then (k, v) :: rest else p :: rawInsert rest k v

/-- Python `del m[k]` / `m.pop(k)` (no-op when absent, matching the
`except KeyError: pass` uses in the source). -/
def rawErase (m : RawMap) (k : String) : RawMap :=
  match m with
  | [] => []
  | p :: rest => if p.1 == k then rest else p :: rawErase rest k

/-- Keys of a raw mapping in insertion order. -/
def rawKeys (m : RawMap) : List String := m.map (·.1)

/-- The unparsed dictionary of `parse_email`: header name to the list
of raw header values. -/
abbrev Unparsed := List (String × List String)

/-- Assignment `unparsed[name] = value` with dict semantics. -/
def unparsedInsert (m : Unparsed) (k : String) (v : List String) : Unparsed :=
  match m with
  | [] => [(k, v)]
  | p :: rest => if p.1 == k then (k, v) :: rest else p :: unparsedInsert rest k v

/-- Python `unparsed.setdefault(k, []).extend(vs)` /
`.append(v)` generalised: extend the entry in place, creating it if
missing. -/
def unparsedExtend (m : Unparsed) (k : String) (vs : List String) : Unparsed :=
  match m with
  | [] => [(k, vs)]
  | p :: rest =>
    if p.1 == k then (k, p.2 ++ vs) :: rest else p :: unparsedExtend rest k vs

/-- Lookup in the unparsed dictionary. -/
def unparsedLookup (m : Unparsed) (k : String) : Option (List String) :=
  match m with
  | [] => none
  | p :: rest => if p.1 == k then some p.2 else unparsedLookup rest k

/-! ## `packaging.metadata.parse_email` -/

/-- Python `_parse_keywords`: split at commas and strip each part. -/
def parseKeywords (data : String) : List String :=
  ((data.data.splitOn ',').map (fun l => stripStr ⟨l⟩))

/-- Python `str.split(sep, 1)`: split at the first comma only. -/
def splitAtComma : List Char → Option (List Char × List Char)
  | [] => none
  | c :: cs =>
    if c == ',' then some ([], cs)
    else (splitAtComma cs).map (fun p => (c :: p.1, p.2))

/-- Python `_parse_project_urls`: each pair is split at its first
comma, both sides stripped, the right side defaulting to the empty
string; a duplicate label raises `KeyError` (modelled as `none`). -/
def parseProjectUrls (data : List String) : Option (List (String × String)) :=
  data.foldlM
    (fun (urls : List (String × String)) pair =>
      let (label, url) :=
        match splitAtComma pair.data with
        | some (l, u) => (stripStr ⟨l⟩, stripStr ⟨u⟩)
        | none => (stripStr pair, "")
      if (urls.map (·.1)).contains label then none
      else some (urls ++ [(label, url)]))
    []

/-- One iteration of the `for name in frozenset(parsed.keys())` loop of
`parse_email`: dispatch one (lower-cased) header name into the raw or
the unparsed dictionary according to the schema tables. -/
def parseEmailStep (t : SchemaTables) (msg : EmailMessage)
    (state : RawMap × Unparsed) (name : String) : RawMap × Unparsed :=
  let (raw, unparsed) := state
  let value := getAll msg name
  match assocFind t.emailToRaw name with
  | none => (raw, unparsedInsert unparsed name value)
  | some rawName =>
    if t.stringFields.contains rawName ∧ value.length = 1 then
      (rawInsert raw rawName (.str (value.headD "")), unparsed)
    else if t.listFields.contains rawName then
      (rawInsert raw rawName (.list value), unparsed)
    else if rawName == "keywords" ∧ value.length = 1 then
      (rawInsert raw rawName (.list (parseKeywords (value.headD ""))), unparsed)
    else if rawName == "project_urls" then
      match parseProjectUrls value with
      | some urls => (rawInsert raw rawName (.dict urls), unparsed)
      | none => (raw, unparsedInsert unparsed name value)
    else (raw, unparsedInsert unparsed name value)

/-- Payload handling at the end of `parse_email`: a non-empty body
becomes the description, unless a description header was already seen,
in which case both land in the unparsed dictionary.  (The
encoding-failure branch cannot arise for the ASCII text modelled
here.) -/
def parseEmailPayload (msg : EmailMessage)
    (state : RawMap × Unparsed) : RawMap × Unparsed :=
  let (raw, unparsed) := state
  if msg.payload == "" then (raw, unparsed)
  else
    match rawLookup raw "description" with
    | some (.str hdr) =>
      (rawErase raw "description",
       unparsedExtend unparsed "description" [hdr, msg.payload])
    | some _ =>
      (rawErase raw "description",
       unparsedExtend unparsed "description" ["", msg.payload])
    | none =>
      match unparsedLookup unparsed "description" with
      | some _ => (raw, unparsedExtend unparsed "description" [msg.payload])
      | none => (rawInsert raw "description" (.str msg.payload), unparsed)

/-- `packaging.metadata.parse_email`, over an already-lexed message:
returns the recognised raw mapping and the unparsed leftovers. -/
def parse_email (t : SchemaTables) (msg : EmailMessage) : RawMap × Unparsed :=
  parseEmailPayload msg
    ((dedupKeysLower msg.headers).foldl (parseEmailStep t msg) ([], []))

/-! ## Field validators (`packaging.metadata._Validator`) -/

/-- Python `packaging.metadata.InvalidMetadata`: the offending field
(in its email-header spelling, as produced by `_invalid_metadata`) and
a message. -/
structure InvalidMeta where
  field : String
  message : String
  deriving Repr, DecidableEq

/-- The error kinds surfaced by the pipeline: `NoMetadataError` (from
packaging_utils.py), `ExceptionGroup` (validation failures collected by
`packaging.metadata`), and `FileNotFoundError` (no metadata entry in
the wheel). -/
inductive MetaErr where
  | noMetadata
  | exceptionGroup (message : String) (excs : List InvalidMeta)
  | fileNotFound (message : String)
  deriving Repr, DecidableEq

/-- Containment of two consecutive dots, modelling Python's
substring test `".." in path`. -/
def hasDotDot : List Char → Bool
  | '.' :: '.' :: _ => true
  | _ :: cs => hasDotDot cs
  | [] => false

/-- Python `packaging.metadata._VALID_METADATA_VERSIONS`. -/
def validMetadataVersions : List String :=
  ["1.0", "1.1", "1.2", "2.1", "2.2", "2.3", "2.4"]

/-- Position of a version marker in `_VALID_METADATA_VERSIONS`
(`list.index`); only applied to members of that list. -/
def versionIdx : String → Nat
  | s => (validMetadataVersions.indexOf s)

/-- Python `packaging.metadata._REQUIRED_ATTRS`. -/
def requiredAttrs : List String := ["metadata_version", "name", "version"]

/-- Project-name validation regex of `packaging.utils.canonicalize_name`
with `validate=True`: one alphanumeric character, or an alphanumeric
head and tail with alphanumerics, dots, underscores and hyphens in
between (case insensitive). -/
def nameValid (s : String) : Bool :=
  match s.data with
  | [] => false
  | c :: cs =>
    (c.isAlphanum && ((c :: cs).getLastD ' ').isAlphanum &&
      (c :: cs).all (fun x => x.isAlphanum || x == '.' || x == '_' || x == '-'))

/-- Normalisation performed by `packaging.utils.canonicalize_name`:
runs of dots, underscores and hyphens collapse to a single hyphen and
the result is lower-cased. -/
def canonicalizeName (s : String) : String :=
  lowerStr ⟨collapseSeps s.data false⟩
where
  /-- Scan with a flag recording whether the previous character was a
  separator (a run of separators emits a single hyphen). -/
  collapseSeps : List Char → Bool → List Char
    | [], _ => []
    | c :: cs, prevSep =>
      if c == '-' || c == '_' || c == '.' then
        if prevSep then collapseSeps cs true
        else '-' :: collapseSeps cs true
      else c :: collapseSeps cs false

/-- Digit run at the head of a character list. -/
def takeDigits (cs : List Char) : List Char × List Char :=
  (cs.takeWhile Char.isDigit, cs.dropWhile Char.isDigit)

/-- Dot-digit continuation groups of a PEP 440 release segment, with a
fuel argument (any fuel of at least the input length is enough, since
every iteration consumes at least two characters). -/
def pepReleaseTailF : Nat → List Char → List Char
  | 0, cs => cs
  | fuel + 1, cs =>
    match cs with
    | '.' :: rest =>
      if (rest.headD ' ').isDigit then
        pepReleaseTailF fuel (rest.dropWhile Char.isDigit)
      else cs
    | _ => cs

/-- Dot-digit continuation groups of a PEP 440 release segment. -/
def pepReleaseTail (cs : List Char) : List Char :=
  pepReleaseTailF cs.length cs

/-- Release segment of PEP 440: digits, then any number of dot-digit
groups (the input is already lower-cased). -/
def pepRelease (cs : List Char) : Option (List Char) :=
  match takeDigits cs with
  | ([], _) => none
  | (_ :: _, rest) => some (pepReleaseTail rest)

/-- Optional separator of PEP 440 segments: one of hyphen, underscore,
dot, or nothing. -/
def pepSep : List Char → List Char
  | c :: cs => if c == '-' || c == '_' || c == '.' then cs else c :: cs
  | [] => []

/-- Match one of the given keywords (first match wins, mirroring the
alternation order of `packaging.version.VERSION_PATTERN`). -/
def pepKeyword (words : List (List Char)) (cs : List Char) :
    Option (List Char) :=
  match words with
  | [] => none
  | w :: ws => if w.isPrefixOf cs then some (cs.drop w.length) else pepKeyword ws cs

/-- Optional keyword segment `sep? keyword sep? digits?` of PEP 440
(pre-release, post-release and dev segments all have this shape); on
no match the input is returned unchanged. -/
def pepKeywordSegment (words : List (List Char)) (cs : List Char) :
    List Char :=
  match pepKeyword words (pepSep cs) with
  | none => cs
  | some rest => (takeDigits (pepSep rest)).2

/-- Body of a PEP 440 local version segment, as a scanner: nonempty
alphanumeric runs separated by single dots, hyphens or underscores,
running to the end of the string.  The flag records whether the scanner
stands at the (mandatory) start of a run. -/
def pepLocalBody : List Char → Bool → Bool
  | [], atStart => !atStart
  | c :: cs, atStart =>
    if c.isAlphanum then pepLocalBody cs false
    else if (c == '-' || c == '_' || c == '.') && !atStart then
      pepLocalBody cs true
    else false

/-- Recogniser for PEP 440 version strings, modelled from
`packaging.version.VERSION_PATTERN` (case-insensitive, surrounding
whitespace ignored, optional `v` prefix): epoch, release, optional
pre/post/dev segments, optional local segment.  The enriched
`Version` object is not modelled; the pipeline only needs acceptance. -/
def pep440Accepts (s : String) : Bool :=
  let cs := (stripStr (lowerStr s)).data
  let cs := match cs with
    | 'v' :: rest => rest
    | _ => cs
  -- optional epoch: digits followed by an exclamation mark
  let cs := match takeDigits cs with
    | (_ :: _, '!' :: rest) => rest
    | _ => cs
  match pepRelease cs with
  | none => false
  | some cs =>
    let cs := pepKeywordSegment
      [['a','l','p','h','a'], ['a'], ['b','e','t','a'], ['b'],
       ['p','r','e','v','i','e','w'], ['p','r','e'], ['c'], ['r','c']] cs
    -- post segment: either a hyphen followed by digits, or keyword form
    let cs := match cs with
      | '-' :: rest =>
        match takeDigits rest with
        | ([], _) => pepKeywordSegment [['p','o','s','t'], ['r','e','v'], ['r']] cs
        | (_ :: _, rest') => rest'
      | _ => pepKeywordSegment [['p','o','s','t'], ['r','e','v'], ['r']] cs
    let cs := pepKeywordSegment [['d','e','v']] cs
    match cs with
    | [] => true
    | '+' :: rest => pepLocalBody rest true
    | _ => false

/-- Validator table of the repository's `Metadata` class: the
`_Validator` descriptors of `packaging.metadata.Metadata` (copied into
the class namespace by the `MetadataMeta` metaclass) plus the
`variants` validator added with `added="2.1"`.  Each field is paired
with the metadata version that introduced it. -/
def mockhouseFieldDefs : List (String × String) :=
  [("metadata_version", "1.0"), ("name", "1.0"), ("version", "1.0"),
   ("dynamic", "2.2"), ("platforms", "1.0"),
   ("supported_platforms", "1.1"), ("summary", "1.0"),
   ("description", "1.0"), ("description_content_type", "2.1"),
   ("keywords", "1.0"), ("home_page", "1.0"), ("download_url", "1.1"),
   ("author", "1.0"), ("author_email", "1.0"), ("maintainer", "1.2"),
   ("maintainer_email", "1.2"), ("license", "1.0"),
   ("license_expression", "2.4"), ("license_files", "2.4"),
   ("classifiers", "1.1"), ("requires_dist", "1.2"),
   ("requires_python", "1.2"), ("requires_external", "1.2"),
   ("project_urls", "1.2"), ("provides_extra", "2.1"),
   ("provides_dist", "1.2"), ("obsoletes_dist", "1.2"),
   ("requires", "1.1"), ("provides", "1.1"), ("obsoletes", "1.1"),
   ("variants", "2.1")]

/-- Email-header spelling of a raw field name
(`_RAW_TO_EMAIL_MAPPING[key]`). -/
def emailNameOf (t : SchemaTables) (key : String) : String :=
  (assocFind t.rawToEmail key).getD key

/-- The `_process_<field>` converters of `_Validator`, dispatched by
field name; fields without a converter pass their value through
unchanged.  The converters for `requires_python`, `requires_dist`,
`license_expression` and `description_content_type` delegate to
specifier / requirement / license-expression / content-type grammars
of the external packaging library that no claim exercises; they are
modelled as accepting (every theorem below either fixes the content
concretely without these fields or hypothesises a successful parse). -/
def runProcessor (t : SchemaTables) (field : String)
    (value : Option RawValue) : Except InvalidMeta (Option RawValue) :=
  let fieldName := emailNameOf t field
  match field with
  | "metadata_version" =>
    match value with
    | some (.str s) =>
      if validMetadataVersions.contains s then .ok value
      else .error ⟨fieldName, "is not a valid metadata version"⟩
    | _ => .error ⟨fieldName, "is not a valid metadata version"⟩
  | "name" =>
    match value with
    | some (.str s) =>
      if s == "" then .error ⟨fieldName, "is a required field"⟩
      else if nameValid s then .ok value
      else .error ⟨fieldName, "is invalid"⟩
    | some _ => .error ⟨fieldName, "is invalid"⟩
    | none => .error ⟨fieldName, "is a required field"⟩
  | "version" =>
    match value with
    | some (.str s) =>
      if s == "" then .error ⟨fieldName, "is a required field"⟩
      else if pep440Accepts s then .ok value
      else .error ⟨fieldName, "is invalid"⟩
    | some _ => .error ⟨fieldName, "is invalid"⟩
    | none => .error ⟨fieldName, "is a required field"⟩
  | "summary" =>
    match value with
    | some (.str s) =>
      if s.data.contains '\n' then
        .error ⟨fieldName, "must be a single line"⟩
      else .ok value
    | _ => .error ⟨fieldName, "is invalid"⟩
  | "dynamic" =>
    match value with
    | some (.list xs) =>
      if xs.any (fun x =>
          ["name", "version", "metadata-version"].contains (lowerStr x)) then
        .error ⟨fieldName, "is not allowed as a dynamic field"⟩
      else if xs.any (fun x => (assocFind t.emailToRaw (lowerStr x)).isNone) then
        .error ⟨fieldName, "is not a valid dynamic field"⟩
      else .ok (some (.list (xs.map lowerStr)))
    | _ => .error ⟨fieldName, "is invalid"⟩
  | "provides_extra" =>
    match value with
    | some (.list xs) =>
      if xs.all nameValid then .ok (some (.list (xs.map canonicalizeName)))
      else .error ⟨fieldName, "is invalid"⟩
    | _ => .error ⟨fieldName, "is invalid"⟩
  | "license_files" =>
    match value with
    | some (.list xs) =>
      if xs.any (fun p =>
          hasDotDot p.data || p.data.contains '*' ||
          p.data.headD ' ' == '/' || p.data.contains '\\') then
        .error ⟨fieldName, "is invalid"⟩
      else .ok value
    | _ => .error ⟨fieldName, "is invalid"⟩
  | _ => .ok value

/-! ## `Metadata.from_raw` and `Metadata.from_email` -/

/-- Mutable per-instance state of a `Metadata` object: the `_raw`
dictionary (consumed as fields are accessed) and the attribute cache
(`instance.__dict__`) holding enriched values. -/
structure RecState where
  raw : RawMap
  cache : List (String × Option RawValue)
  deriving Repr, DecidableEq

/-- The parsed record (`Metadata` instance) as observed by callers:
its remaining `_raw` dictionary and its attribute cache. -/
structure MetadataRecord where
  raw : RawMap
  cache : List (String × Option RawValue)
  deriving Repr, DecidableEq

/-- Lookup in the attribute cache. -/
def cacheLookup (m : List (String × Option RawValue)) (k : String) :
    Option (Option RawValue) :=
  match m with
  | [] => none
  | p :: rest => if p.1 == k then some p.2 else cacheLookup rest k

/-- The `_Validator.__get__` descriptor in state-passing form: read the
field from `_raw`; run its converter when the field is required or a
value is present (a converter error propagates, leaving the state
untouched); otherwise cache the value and delete it from `_raw`. -/
def accessField (t : SchemaTables) (st : RecState) (field : String) :
    Except InvalidMeta (RecState × Option RawValue) :=
  let value := rawLookup st.raw field
  if requiredAttrs.contains field ∨ value.isSome then
    match runProcessor t field value with
    | .error e => .error e
    | .ok v => .ok (⟨rawErase st.raw field, st.cache ++ [(field, v)]⟩, v)
  else
    .ok (⟨rawErase st.raw field, st.cache ++ [(field, value)]⟩, value)

/-- Duplicate-dropping accumulation (the effect of iterating a Python
set built from a list, made deterministic by keeping first-occurrence
order). -/
def dedupList (l : List String) : List String :=
  l.foldl (fun acc k => if acc.contains k then acc else acc ++ [k]) []

/-- One iteration of the `for key in fields_to_check` loop of
`Metadata.from_raw`: with a valid metadata version at hand, an unknown
field or a field introduced later than that version yields an
exception; otherwise the field is accessed (validated, cached and
removed from `_raw`), any validator error being collected. -/
def validateStep (t : SchemaTables) (mv : Option String)
    (s : RecState × List InvalidMeta) (key : String) :
    RecState × List InvalidMeta :=
  let (st, excs) := s
  match mv with
  | some mvs =>
    match assocFind mockhouseFieldDefs key with
    | none => (st, excs ++ [⟨key, "unrecognized field"⟩])
    | some added =>
      if versionIdx mvs < versionIdx added then
        (st, excs ++
          [⟨emailNameOf t key, "introduced in a later metadata version"⟩])
      else
        match accessField t st key with
        | .ok (st', _) => (st', excs)
        | .error e => (st, excs ++ [e])
  | none =>
    match accessField t st key with
    | .ok (st', _) => (st', excs)
    | .error e => (st, excs ++ [e])

/-- The `for key in fields_to_check` loop of `Metadata.from_raw` and
its conclusion: compute `fields_to_check` (present keys plus required
ones, without `metadata_version`), fold the validation step over them
starting from the state and exceptions left by the `metadata_version`
access, then raise the collected exceptions as a group or return the
final state. -/
def fromRawLoop (t : SchemaTables) (mv : Option String) (st1 : RecState)
    (excs1 : List InvalidMeta) : Except MetaErr MetadataRecord :=
  let fieldsToCheck :=
    (dedupList (rawKeys st1.raw ++ requiredAttrs)).filter
      (fun k => k ≠ "metadata_version")
  let run := fieldsToCheck.foldl (validateStep t mv) (st1, excs1)
  if run.2.isEmpty then .ok ⟨run.1.raw, run.1.cache⟩
  else .error (.exceptionGroup "invalid metadata" run.2)

/-- The validating branch of `Metadata.from_raw`: access
`metadata_version` first (its failure is collected and leaves the
version unknown), then run the field loop. -/
def fromRawValidated (t : SchemaTables) (data : RawMap) :
    Except MetaErr MetadataRecord :=
  match accessField t ⟨data, []⟩ "metadata_version" with
  | .ok (st, some (.str s)) => fromRawLoop t (some s) st []
  | .ok (st, _) => fromRawLoop t none st []
  | .error e => fromRawLoop t none ⟨data, []⟩ [e]

namespace Metadata

/-- Python `Metadata.from_raw(data, validate=...)` on the repository's
patched `Metadata` class: copy the data into `_raw`; when validating,
access `metadata_version` first, then every present or required field
(checking it against the class's validator table and the metadata
version that introduced it), collecting all validation errors; raise
them as a group, or return the instance.  Accessing a field moves it
from `_raw` into the attribute cache.  (When coming from `from_email`
every raw key has a validator in the class, so the loop's
`cls.__dict__` lookup path is total.) -/
def from_raw (t : SchemaTables) (data : RawMap) (validate : Bool) :
    Except MetaErr MetadataRecord :=
  if validate then fromRawValidated t data
  else .ok ⟨data, []⟩

/-- Python `Metadata.from_email` over an already-lexed message: run
`parse_email`; when validating, raise a group for any unparsed fields;
then defer to `from_raw`, re-labelling its exception group. -/
def fromEmailMsg (t : SchemaTables) (msg : EmailMessage) (validate : Bool) :
    Except MetaErr MetadataRecord :=
  let (raw, unparsed) := parse_email t msg
  if validate ∧ ¬ unparsed.isEmpty then
    .error (.exceptionGroup "unparsed"
      (unparsed.map (fun p =>
        if (assocFind t.emailToRaw p.1).isSome then
          InvalidMeta.mk p.1 "has invalid data"
        else
          InvalidMeta.mk p.1 "unrecognized field")))
  else
    match from_raw t raw validate with
    | .ok r => .ok r
    | .error (.exceptionGroup _ es) =>
      .error (.exceptionGroup "invalid or unparsed metadata" es)
    | .error e => .error e

/-- Python `Metadata.from_email(data, validate=...)`. -/
def from_email (t : SchemaTables) (data : String) (validate : Bool) :
    Except MetaErr MetadataRecord :=
  fromEmailMsg t (parseEmailText data) validate

end Metadata

/-- The `variants` accessor of the repository's `Metadata` class: the
`_Validator` descriptor returns the cached value when the field was
already accessed (validation caches every checked field) and otherwise
reads `_raw`; `variants` has no `_process_` converter, so the value
passes through unchanged, and an absent field yields `None`. -/
def MetadataRecord.variants (r : MetadataRecord) : Option RawValue :=
  match cacheLookup r.cache "variants" with
  | some v => v
  | none => rawLookup r.raw "variants"

/-! ## The repository's functions (`packaging_utils.py`) -/

/-- Python `parse_metadata_file_content(content)`: parse present
content with `Metadata.from_email(content, validate=True)` against the
process-wide (patched) tables; absent content raises
`NoMetadataError`. -/
def parse_metadata_file_content (content : Option String) :
    Except MetaErr MetadataRecord :=
  match content with
  | some c => Metadata.from_email importedTables c true
  | none => .error .noMetadata

/-- A wheel archive: its entry listing in archive order, each entry a
name paired with its (decoded) contents. -/
structure Wheel where
  entries : List (String × String)
  deriving Repr, DecidableEq

/-- Python `zipfile.ZipFile.namelist()`. -/
def Wheel.namelist (w : Wheel) : List String := w.entries.map (·.1)

/-- Contents of the entry opened by `whl.open(name)` followed by
`f.read()`; `zipfile` resolves a duplicated name to its last entry.
The pipeline only opens names taken from the listing, so the default
is never reached. -/
def Wheel.readEntry (w : Wheel) (name : String) : String :=
  (assocFind w.entries.reverse name).getD ""

/-- Python `wheel_to_metadata_dict(wheelpath)`: locate the first entry
whose name ends with "METADATA" (`next` over `namelist()` with a
`str.endswith` filter), read it, parse it, and return the `_raw`
mapping of the record; raise `FileNotFoundError` when no entry matched
(the truthiness test `if metadata_file:` also sends an empty matched
name there). -/
def wheel_to_metadata_dict (whl : Wheel) : Except MetaErr RawMap :=
  match whl.namelist.find? (fun f => endsWithStr f "METADATA") with
  | some metadataFile =>
    if metadataFile == "" then
      .error (.fileNotFound "No METADATA file found in this wheel package.")
    else
      (parse_metadata_file_content (some (whl.readEntry metadataFile))).map
        (fun r => r.raw)
  | none =>
    .error (.fileNotFound "No METADATA file found in this wheel package.")

/-! ## Concrete inputs used by witnesses and counterexamples -/

/-- A wheel whose only metadata entry ends in PKG-INFO (its contents
are a well-formed metadata block). -/
def c1wheel : Wheel :=
  ⟨[("dummy_project-0.0.1.dev1.dist-info/PKG-INFO",
     "Metadata-Version: 2.1\nName: dummy-project\nVersion: 0.0.1.dev1\n")]⟩

/-- A wheel with a single well-formed METADATA entry carrying the
concrete scenario of the specification (Name dummy-project, Version
0.0.1.dev1). -/
def c2wheel : Wheel :=
  ⟨[("dummy_project-0.0.1.dev1.dist-info/METADATA",
     "Metadata-Version: 2.1\nName: dummy-project\nVersion: 0.0.1.dev1\n")]⟩

/-- A wheel with no entry ending in METADATA and none ending in
PKG-INFO. -/
def c3wheel : Wheel :=
  ⟨[("dummy_project-0.0.1.dev1.dist-info/RECORD", ""),
    ("dummy_project/main.py", "")]⟩

/-- Well-formed metadata content with the two header lines
`variant: a` and `variant: b`, in that order. -/
def c5content : String :=
  "Metadata-Version: 2.1\nName: dummy-project\nVersion: 0.0.1.dev1\nvariant: a\nvariant: b\n"

/-- The record parsed from `c5content`. -/
def c5record : MetadataRecord :=
  ⟨[], [("metadata_version", some (.str "2.1")),
        ("name", some (.str "dummy-project")),
        ("version", some (.str "0.0.1.dev1")),
        ("variants", some (.list ["a", "b"]))]⟩

/-- Well-formed metadata content with no `variant` header line. -/
def c6content : String :=
  "Metadata-Version: 2.1\nName: dummy-project\nVersion: 0.0.1.dev1\n"

/-- The record parsed from `c6content`. -/
def c6record : MetadataRecord :=
  ⟨[], [("metadata_version", some (.str "2.1")),
        ("name", some (.str "dummy-project")),
        ("version", some (.str "0.0.1.dev1"))]⟩

/-- Metadata content containing a header name not defined in the
schema. -/
def c7content : String :=
  "Metadata-Version: 2.1\nName: dummy-project\nVersion: 0.0.1.dev1\nUnknown-Field: zzz\n"

/-- A wheel with a single well-formed METADATA entry, used for the
round-trip claim. -/
def c8wheel : Wheel :=
  ⟨[("pkg_eight-1.0.dist-info/METADATA",
     "Metadata-Version: 2.1\nName: pkg-eight\nVersion: 1.0\n")]⟩

/-! ## Association-list lemmas -/

theorem rawLookup_insert_self (m : RawMap) (k : String) (v : RawValue) :
    rawLookup (rawInsert m k v) k = some v := by
  induction m with
  | nil => simp [rawInsert, rawLookup]
  | cons p rest ih =>
    by_cases hp : p.1 = k
    · simp [rawInsert, rawLookup, hp]
    · simp [rawInsert, rawLookup, hp, ih]

theorem rawLookup_insert_ne (m : RawMap) (k k' : String) (v : RawValue)
    (h : k ≠ k') : rawLookup (rawInsert m k v) k' = rawLookup m k' := by
  induction m with
  | nil => simp [rawInsert, rawLookup, h]
  | cons p rest ih =>
    by_cases hp : p.1 = k
    · simp [rawInsert, rawLookup, hp, h, Ne.symm h]
    · by_cases hp' : p.1 = k'
      · simp [rawInsert, rawLookup, hp, hp', h, Ne.symm h]
      · simp [rawInsert, rawLookup, hp, hp', ih]

theorem rawLookup_erase_ne (m : RawMap) (k k' : String)
    (h : k ≠ k') : rawLookup (rawErase m k) k' = rawLookup m k' := by
  induction m with
  | nil => simp [rawErase, rawLookup]
  | cons p rest ih =>
    by_cases hp : p.1 = k
    · simp [rawErase, rawLookup, hp, h, Ne.symm h]
    · by_cases hp' : p.1 = k'
      · simp [rawErase, rawLookup, hp, hp', h, Ne.symm h]
      · simp [rawErase, rawLookup, hp, hp', ih]

theorem rawLookup_mem_keys (m : RawMap) (k : String) (v : RawValue)
    (h : rawLookup m k = some v) : k ∈ rawKeys m := by
  induction m with
  | nil => simp [rawLookup] at h
  | cons p rest ih =>
    by_cases hp : p.1 = k
    · simp [rawKeys, hp]
    · simp only [rawLookup, hp] at h
      simp only [beq_iff_eq, hp, if_false] at h
      simp [rawKeys]
      exact Or.inr (by simpa [rawKeys] using ih h)

theorem cacheLookup_append_ne (m : List (String × Option RawValue))
    (k x : String) (v : Option RawValue) (h : k ≠ x) :
    cacheLookup (m ++ [(k, v)]) x = cacheLookup m x := by
  induction m with
  | nil => simp [cacheLookup, h]
  | cons p rest ih =>
    by_cases hp : p.1 = x
    · simp [cacheLookup, hp]
    · simp [cacheLookup, hp, ih]

theorem cacheLookup_append_self (m : List (String × Option RawValue))
    (x : String) (v : Option RawValue) (h : cacheLookup m x = none) :
    cacheLookup (m ++ [(x, v)]) x = some v := by
  induction m with
  | nil => simp [cacheLookup]
  | cons p rest ih =>
    by_cases hp : p.1 = x
    · simp [cacheLookup, hp] at h
    · simp only [cacheLookup, hp] at h
      simp only [beq_iff_eq, hp, if_false] at h
      simp [cacheLookup, hp, ih h]

theorem unparsedInsert_ne_nil (m : Unparsed) (k : String) (v : List String) :
    unparsedInsert m k v ≠ [] := by
  cases m with
  | nil => simp [unparsedInsert]
  | cons p rest =>
    simp only [unparsedInsert]
    by_cases hp : p.1 = k
    · simp [hp]
    · simp [hp]

theorem unparsedExtend_ne_nil (m : Unparsed) (k : String) (v : List String) :
    unparsedExtend m k v ≠ [] := by
  cases m with
  | nil => simp [unparsedExtend]
  | cons p rest =>
    simp only [unparsedExtend]
    by_cases hp : p.1 = k
    · simp [hp]
    · simp [hp]

theorem assocFind_mem (m : List (String × String)) (n v : String)
    (h : assocFind m n = some v) : (n, v) ∈ m := by
  induction m with
  | nil => simp [assocFind] at h
  | cons p rest ih =>
    obtain ⟨a, b⟩ := p
    by_cases hp : a = n
    · subst hp
      simp only [assocFind, beq_self_eq_true, if_true, Option.some.injEq] at h
      subst h
      exact List.mem_cons_self _ _
    · simp only [assocFind, beq_iff_eq, hp, if_false] at h
      exact List.mem_cons_of_mem _ (ih h)

/-! ## Deduplication lemmas -/

theorem dedup_foldl_mem (l acc : List String) (x : String) :
    (x ∈ l.foldl
      (fun acc k => if acc.contains k then acc else acc ++ [k]) acc) ↔
    x ∈ acc ∨ x ∈ l := by
  induction l generalizing acc with
  | nil => simp
  | cons k ks ih =>
    simp only [List.foldl_cons]
    by_cases hk : acc.contains k
    · rw [if_pos hk, ih]
      constructor
      · rintro (h | h)
        · exact Or.inl h
        · exact Or.inr (List.mem_cons_of_mem _ h)
      · rintro (h | h)
        · exact Or.inl h
        · rcases List.mem_cons.mp h with rfl | h
          · exact Or.inl (by simpa using hk)
          · exact Or.inr h
    · rw [if_neg hk, ih]
      simp only [List.mem_append, List.mem_singleton, List.mem_cons]
      tauto

theorem dedup_foldl_nodup (l acc : List String) (h : acc.Nodup) :
    (l.foldl
      (fun acc k => if acc.contains k then acc else acc ++ [k]) acc).Nodup := by
  induction l generalizing acc with
  | nil => simpa
  | cons k ks ih =>
    simp only [List.foldl_cons]
    by_cases hk : acc.contains k
    · rw [if_pos hk]
      exact ih _ h
    · rw [if_neg hk]
      refine ih _ ?_
      rw [List.nodup_append]
      refine ⟨h, List.nodup_singleton _, ?_⟩
      intro a ha hb
      rcases List.mem_singleton.mp hb with rfl
      exact hk (by simpa using ha)

theorem mem_dedupList (l : List String) (x : String) :
    x ∈ dedupList l ↔ x ∈ l := by
  rw [dedupList, dedup_foldl_mem]
  simp

theorem dedupList_nodup (l : List String) : (dedupList l).Nodup :=
  dedup_foldl_nodup l [] List.nodup_nil

theorem dedupKeysLower_eq (hs : List (String × String)) :
    dedupKeysLower hs = dedupList (hs.map (fun h => lowerStr h.1)) := by
  rw [dedupKeysLower, dedupList, List.foldl_map]

theorem mem_dedupKeysLower (hs : List (String × String)) (x : String) :
    x ∈ dedupKeysLower hs ↔ ∃ h ∈ hs, lowerStr h.1 = x := by
  rw [dedupKeysLower_eq, mem_dedupList, List.mem_map]

theorem dedupKeysLower_nodup (hs : List (String × String)) :
    (dedupKeysLower hs).Nodup := by
  rw [dedupKeysLower_eq]
  exact dedupList_nodup _

/-! ## Facts about the patched tables -/

/-- In the patched email-to-raw mapping, the only header name mapped to
the raw field "variants" is "variant". -/
theorem emailToRaw_variants_src (n : String)
    (h : assocFind importedTables.emailToRaw n = some "variants") :
    n = "variant" := by
  have hm := assocFind_mem _ _ _ h
  have hall : ∀ p ∈ importedTables.emailToRaw,
      p.2 = "variants" → p.1 = "variant" := by decide
  exact hall _ hm rfl

/-- In the patched email-to-raw mapping, no header name maps to the raw
field "description" except "description" itself (used to see that the
payload step is the only other writer of that key). -/
theorem emailToRaw_description_src (n : String)
    (h : assocFind importedTables.emailToRaw n = some "description") :
    n = "description" := by
  have hm := assocFind_mem _ _ _ h
  have hall : ∀ p ∈ importedTables.emailToRaw,
      p.2 = "description" → p.1 = "description" := by decide
  exact hall _ hm rfl

/-! ## Lemmas about `parse_email` -/

/-- A dispatch step for a header name other than "variant" cannot touch
the "variants" key of the raw mapping (only "variant" maps to it in the
patched tables). -/
theorem parseEmailStep_raw_variants_ne (msg : EmailMessage)
    (st : RawMap × Unparsed) (n : String) (hn : n ≠ "variant") :
    rawLookup (parseEmailStep importedTables msg st n).1 "variants" =
      rawLookup st.1 "variants" := by
  obtain ⟨raw, unp⟩ := st
  simp only [parseEmailStep]
  cases hfind : assocFind importedTables.emailToRaw n with
  | none => rfl
  | some rawName =>
    have hne : rawName ≠ "variants" := fun h =>
      hn (emailToRaw_variants_src n (h ▸ hfind))
    simp only []
    split_ifs with h1 h2 h3 h4
    · exact rawLookup_insert_ne _ _ _ _ hne
    · exact rawLookup_insert_ne _ _ _ _ hne
    · exact rawLookup_insert_ne _ _ _ _ hne
    · cases parseProjectUrls (getAll msg n) with
      | some urls => exact rawLookup_insert_ne _ _ _ _ hne
      | none => rfl
    · rfl

/-- A dispatch step never empties the unparsed dictionary. -/
theorem parseEmailStep_unparsed_ne_nil (t : SchemaTables)
    (msg : EmailMessage) (st : RawMap × Unparsed) (n : String)
    (h : st.2 ≠ []) : (parseEmailStep t msg st n).2 ≠ [] := by
  obtain ⟨raw, unp⟩ := st
  simp only [parseEmailStep]
  cases assocFind t.emailToRaw n with
  | none => exact unparsedInsert_ne_nil _ _ _
  | some rawName =>
    simp only []
    split_ifs
    · exact h
    · exact h
    · exact h
    · cases parseProjectUrls (getAll msg n) with
      | some urls => exact h
      | none => exact unparsedInsert_ne_nil _ _ _
    · exact unparsedInsert_ne_nil _ _ _

/-- The dispatch step for a header name absent from the email-to-raw
mapping records it in the unparsed dictionary. -/
theorem parseEmailStep_unparsed_unknown (t : SchemaTables)
    (msg : EmailMessage) (st : RawMap × Unparsed) (n : String)
    (hfind : assocFind t.emailToRaw n = none) :
    (parseEmailStep t msg st n).2 ≠ [] := by
  obtain ⟨raw, unp⟩ := st
  simp only [parseEmailStep, hfind]
  exact unparsedInsert_ne_nil _ _ _

/-- Folding dispatch steps over names not containing "variant" leaves
the "variants" entry of the raw mapping unchanged. -/
theorem foldl_parseEmailStep_variants_preserve (msg : EmailMessage) :
    ∀ (names : List String) (st : RawMap × Unparsed),
    "variant" ∉ names →
    rawLookup ((names.foldl (parseEmailStep importedTables msg) st).1)
        "variants" = rawLookup st.1 "variants" := by
  intro names
  induction names with
  | nil => intro st _; rfl
  | cons n ns ih =>
    intro st h
    simp only [List.foldl_cons]
    rw [ih _ (fun hm => h (List.mem_cons_of_mem _ hm)),
        parseEmailStep_raw_variants_ne msg st n
          (fun hn => h (hn ▸ List.mem_cons_self _ _))]

/-- Folding dispatch steps over a duplicate-free list of names
containing "variant" stores the ordered variant header values under the
"variants" key. -/
theorem foldl_parseEmailStep_variants_set (msg : EmailMessage) :
    ∀ (names : List String) (st : RawMap × Unparsed),
    "variant" ∈ names → names.Nodup →
    rawLookup ((names.foldl (parseEmailStep importedTables msg) st).1)
        "variants" = some (.list (getAll msg "variant")) := by
  intro names
  induction names with
  | nil => intro st hmem _; cases hmem
  | cons n ns ih =>
    intro st hmem hnodup
    have hnotin := (List.nodup_cons.mp hnodup).1
    rcases List.mem_cons.mp hmem with rfl | hmem'
    · simp only [List.foldl_cons]
      rw [foldl_parseEmailStep_variants_preserve msg ns _ hnotin]
      obtain ⟨raw, unp⟩ := st
      have hfind : assocFind importedTables.emailToRaw "variant" =
          some "variants" := by decide
      have hstr : importedTables.stringFields.contains "variants" = false := by
        decide
      have hlist : importedTables.listFields.contains "variants" = true := by
        decide
      simp only [parseEmailStep, hfind, hstr, hlist]
      simp only [Bool.false_eq_true, false_and, if_false, if_true]
      exact rawLookup_insert_self _ _ _
    · have hn : n ≠ "variant" := fun h => hnotin (h ▸ hmem')
      simp only [List.foldl_cons]
      exact ih _ hmem' (List.nodup_cons.mp hnodup).2

/-- The payload step only touches the "description" key of the raw
mapping. -/
theorem parseEmailPayload_raw_variants (msg : EmailMessage)
    (st : RawMap × Unparsed) :
    rawLookup (parseEmailPayload msg st).1 "variants" =
      rawLookup st.1 "variants" := by
  obtain ⟨raw, unp⟩ := st
  simp only [parseEmailPayload]
  split_ifs with h1
  · rfl
  · cases rawLookup raw "description" with
    | none =>
      simp only []
      cases unparsedLookup unp "description" with
      | none =>
        exact rawLookup_insert_ne _ _ _ _ (by decide)
      | some _ => rfl
    | some v =>
      cases v with
      | str s => exact rawLookup_erase_ne _ _ _ (by decide)
      | list xs => exact rawLookup_erase_ne _ _ _ (by decide)
      | dict kvs => exact rawLookup_erase_ne _ _ _ (by decide)

/-- The payload step never empties the unparsed dictionary. -/
theorem parseEmailPayload_unparsed_ne_nil (msg : EmailMessage)
    (st : RawMap × Unparsed) (h : st.2 ≠ []) :
    (parseEmailPayload msg st).2 ≠ [] := by
  obtain ⟨raw, unp⟩ := st
  simp only [parseEmailPayload]
  split_ifs with h1
  · exact h
  · cases rawLookup raw "description" with
    | none =>
      simp only []
      cases unparsedLookup unp "description" with
      | none => exact h
      | some _ => exact unparsedExtend_ne_nil _ _ _
    | some v =>
      cases v with
      | str s => exact unparsedExtend_ne_nil _ _ _
      | list xs => exact unparsedExtend_ne_nil _ _ _
      | dict kvs => exact unparsedExtend_ne_nil _ _ _

/-- Folding the dispatch steps keeps the unparsed dictionary non-empty
once it is non-empty, or makes it so at an unknown name. -/
theorem foldl_parseEmailStep_unparsed_ne (msg : EmailMessage) :
    ∀ (names : List String) (st : RawMap × Unparsed),
    (st.2 ≠ [] ∨ ∃ n ∈ names, assocFind importedTables.emailToRaw n = none) →
    ((names.foldl (parseEmailStep importedTables msg) st).2) ≠ [] := by
  intro names
  induction names with
  | nil =>
    intro st h
    rcases h with h | ⟨n, hn, _⟩
    · exact h
    · cases hn
  | cons n ns ih =>
    intro st h
    simp only [List.foldl_cons]
    apply ih
    rcases h with h | ⟨m, hm, hfind⟩
    · exact Or.inl (parseEmailStep_unparsed_ne_nil _ _ _ _ h)
    · rcases List.mem_cons.mp hm with rfl | hm'
      · exact Or.inl (parseEmailStep_unparsed_unknown _ _ _ _ hfind)
      · exact Or.inr ⟨m, hm', hfind⟩

/-- If some header of the message lowers to "variant", the raw mapping
produced by `parse_email` holds the ordered variant header values under
"variants". -/
theorem parse_email_variants_present (msg : EmailMessage)
    (h : "variant" ∈ dedupKeysLower msg.headers) :
    rawLookup (parse_email importedTables msg).1 "variants" =
      some (.list (getAll msg "variant")) := by
  rw [parse_email, parseEmailPayload_raw_variants]
  exact foldl_parseEmailStep_variants_set msg _ _ h (dedupKeysLower_nodup _)

/-- If no header of the message lowers to "variant", the raw mapping
produced by `parse_email` has no "variants" entry. -/
theorem parse_email_variants_absent (msg : EmailMessage)
    (h : "variant" ∉ dedupKeysLower msg.headers) :
    rawLookup (parse_email importedTables msg).1 "variants" = none := by
  rw [parse_email, parseEmailPayload_raw_variants,
      foldl_parseEmailStep_variants_preserve msg _ _ h]
  rfl

/-- A header name outside the email-to-raw mapping forces a non-empty
unparsed dictionary. -/
theorem parse_email_unparsed_ne (msg : EmailMessage)
    (h : ∃ n ∈ dedupKeysLower msg.headers,
          assocFind importedTables.emailToRaw n = none) :
    (parse_email importedTables msg).2 ≠ [] := by
  rw [parse_email]
  exact parseEmailPayload_unparsed_ne_nil _ _
    (foldl_parseEmailStep_unparsed_ne msg _ _ (Or.inr h))

/-! ## Lemmas about `from_raw` -/

theorem mem_rawKeys_lookup (m : RawMap) (k : String) (h : k ∈ rawKeys m) :
    ∃ v, rawLookup m k = some v := by
  induction m with
  | nil => simp [rawKeys] at h
  | cons p rest ih =>
    by_cases hp : p.1 = k
    · exact ⟨p.2, by simp [rawLookup, hp]⟩
    · simp only [rawKeys, List.map_cons, List.mem_cons] at h
      rcases h with h | h
      · exact absurd h.symm hp
      · obtain ⟨v, hv⟩ := ih h
        exact ⟨v, by simp [rawLookup, hp, hv]⟩

/-- A successful field access erases the field from `_raw` and appends
the (possibly enriched) value to the attribute cache. -/
theorem accessField_ok_shape (t : SchemaTables) (st : RecState)
    (field : String) (st' : RecState) (v : Option RawValue)
    (h : accessField t st field = .ok (st', v)) :
    st'.raw = rawErase st.raw field ∧
    st'.cache = st.cache ++ [(field, v)] := by
  simp only [accessField] at h
  split_ifs at h with hc
  · cases hproc : runProcessor t field (rawLookup st.raw field) with
    | error e => rw [hproc] at h; cases h
    | ok v' =>
      rw [hproc] at h
      cases h
      exact ⟨rfl, rfl⟩
  · cases h
    exact ⟨rfl, rfl⟩

/-- A successful access of `metadata_version` yields a version string
(the converter admits nothing else). -/
theorem accessField_mv_str (t : SchemaTables) (st : RecState)
    (st' : RecState) (v : Option RawValue)
    (h : accessField t st "metadata_version" = .ok (st', v)) :
    ∃ s, v = some (.str s) := by
  simp only [accessField] at h
  split_ifs at h with hc
  · cases hval : rawLookup st.raw "metadata_version" with
    | none =>
      rw [hval] at h
      have h' : (Except.error (⟨emailNameOf t "metadata_version",
          "is not a valid metadata version"⟩ : InvalidMeta) :
          Except InvalidMeta (RecState × Option RawValue)) = .ok (st', v) := h
      cases h'
    | some rv =>
      rw [hval] at h
      cases rv with
      | str s =>
        have hrp : runProcessor t "metadata_version" (some (.str s)) =
            if validMetadataVersions.contains s = true then
              .ok (some (.str s))
            else .error ⟨emailNameOf t "metadata_version",
              "is not a valid metadata version"⟩ := rfl
        rw [hrp] at h
        split_ifs at h with hco
        have h' : ((⟨rawErase st.raw "metadata_version",
            st.cache ++ [("metadata_version", some (RawValue.str s))]⟩ :
            RecState),
            some (RawValue.str s)) = (st', v) := Except.ok.inj h
        cases h'
        exact ⟨s, rfl⟩
      | list xs =>
        have h' : (Except.error (⟨emailNameOf t "metadata_version",
            "is not a valid metadata version"⟩ : InvalidMeta) :
            Except InvalidMeta (RecState × Option RawValue)) = .ok (st', v) := h
        cases h'
      | dict kvs =>
        have h' : (Except.error (⟨emailNameOf t "metadata_version",
            "is not a valid metadata version"⟩ : InvalidMeta) :
            Except InvalidMeta (RecState × Option RawValue)) = .ok (st', v) := h
        cases h'
  · exact absurd (Or.inl (by decide)) hc

/-- One validation step appends zero or more exceptions. -/
theorem validateStep_excs (t : SchemaTables) (mv : Option String)
    (s : RecState × List InvalidMeta) (key : String) :
    ∃ l, (validateStep t mv s key).2 = s.2 ++ l := by
  obtain ⟨st, excs⟩ := s
  simp only [validateStep]
  cases mv with
  | none =>
    cases accessField t st key with
    | ok p => exact ⟨[], by simp⟩
    | error e => exact ⟨[e], rfl⟩
  | some mvs =>
    cases assocFind mockhouseFieldDefs key with
    | none => exact ⟨[⟨key, "unrecognized field"⟩], rfl⟩
    | some added =>
      simp only []
      split_ifs
      · exact ⟨[⟨emailNameOf t key, "introduced in a later metadata version"⟩],
          rfl⟩
      · cases accessField t st key with
        | ok p => exact ⟨[], by simp⟩
        | error e => exact ⟨[e], rfl⟩

/-- The validation loop only appends exceptions. -/
theorem foldl_validateStep_excs (t : SchemaTables) (mv : Option String) :
    ∀ (keys : List String) (s : RecState × List InvalidMeta),
    ∃ l, (keys.foldl (validateStep t mv) s).2 = s.2 ++ l := by
  intro keys
  induction keys with
  | nil => intro s; exact ⟨[], by simp⟩
  | cons k ks ih =>
    intro s
    obtain ⟨l1, hl1⟩ := validateStep_excs t mv s k
    obtain ⟨l2, hl2⟩ := ih (validateStep t mv s k)
    exact ⟨l1 ++ l2, by simp only [List.foldl_cons, hl2, hl1, List.append_assoc]⟩

/-- A validation step for a key other than `x` leaves the cache and
`_raw` entries of `x` unchanged. -/
theorem validateStep_preserve (t : SchemaTables) (mv : Option String)
    (s : RecState × List InvalidMeta) (key x : String) (hx : key ≠ x) :
    cacheLookup (validateStep t mv s key).1.cache x =
      cacheLookup s.1.cache x ∧
    rawLookup (validateStep t mv s key).1.raw x = rawLookup s.1.raw x := by
  obtain ⟨st, excs⟩ := s
  simp only [validateStep]
  cases mv with
  | none =>
    cases hacc : accessField t st key with
    | ok p =>
      obtain ⟨st', v⟩ := p
      obtain ⟨hraw, hcache⟩ := accessField_ok_shape t st key st' v hacc
      constructor
      · simp only [hcache]
        exact cacheLookup_append_ne _ _ _ _ hx
      · simp only [hraw]
        exact rawLookup_erase_ne _ _ _ hx
    | error e => exact ⟨rfl, rfl⟩
  | some mvs =>
    cases assocFind mockhouseFieldDefs key with
    | none => exact ⟨rfl, rfl⟩
    | some added =>
      simp only []
      split_ifs
      · exact ⟨rfl, rfl⟩
      · cases hacc : accessField t st key with
        | ok p =>
          obtain ⟨st', v⟩ := p
          obtain ⟨hraw, hcache⟩ := accessField_ok_shape t st key st' v hacc
          constructor
          · simp only [hcache]
            exact cacheLookup_append_ne _ _ _ _ hx
          · simp only [hraw]
            exact rawLookup_erase_ne _ _ _ hx
        | error e => exact ⟨rfl, rfl⟩

/-- The validation loop over keys avoiding `x` leaves the cache and
`_raw` entries of `x` unchanged. -/
theorem foldl_validateStep_preserve (t : SchemaTables) (mv : Option String) :
    ∀ (keys : List String) (s : RecState × List InvalidMeta) (x : String),
    x ∉ keys →
    cacheLookup ((keys.foldl (validateStep t mv) s).1.cache) x =
      cacheLookup s.1.cache x ∧
    rawLookup ((keys.foldl (validateStep t mv) s).1.raw) x =
      rawLookup s.1.raw x := by
  intro keys
  induction keys with
  | nil => intro s x _; exact ⟨rfl, rfl⟩
  | cons k ks ih =>
    intro s x hx
    simp only [List.foldl_cons]
    have hk : k ≠ x := fun h => hx (h ▸ List.mem_cons_self _ _)
    obtain ⟨hc1, hr1⟩ := validateStep_preserve t mv s k x hk
    obtain ⟨hc2, hr2⟩ :=
      ih (validateStep t mv s k) x (fun h => hx (List.mem_cons_of_mem _ h))
    exact ⟨hc2.trans hc1, hr2.trans hr1⟩

/-- If the validation loop finishes with no exceptions and "variants"
is among its (duplicate-free) keys with a value in `_raw`, the loop
caches that value unchanged ("variants" has no converter). -/
theorem foldl_validateStep_variants (t : SchemaTables) (mvs : String) :
    ∀ (keys : List String) (s : RecState × List InvalidMeta) (v : RawValue),
    "variants" ∈ keys → keys.Nodup →
    rawLookup s.1.raw "variants" = some v →
    cacheLookup s.1.cache "variants" = none →
    (keys.foldl (validateStep t (some mvs)) s).2 = [] →
    cacheLookup ((keys.foldl (validateStep t (some mvs)) s).1.cache)
      "variants" = some (some v) := by
  intro keys
  induction keys with
  | nil => intro s v hmem; cases hmem
  | cons k ks ih =>
    intro s v hmem hnodup hraw hcache hfinal
    have hnotin := (List.nodup_cons.mp hnodup).1
    rcases List.mem_cons.mp hmem with rfl | hmem'
    · obtain ⟨st, excs⟩ := s
      have hdefs : assocFind mockhouseFieldDefs "variants" = some "2.1" := by
        decide
      simp only [List.foldl_cons, validateStep, hdefs] at hfinal ⊢
      split_ifs at hfinal ⊢ with hver
      · obtain ⟨l, hl⟩ := foldl_validateStep_excs t (some mvs) ks _
        rw [hl] at hfinal
        simp at hfinal
      · have hacc : accessField t st "variants" =
            .ok (⟨rawErase st.raw "variants",
                  st.cache ++ [("variants", some v)]⟩, some v) := by
          simp only [accessField]
          rw [if_pos]
          · have hrun : runProcessor t "variants" (some v) = .ok (some v) := rfl
            rw [show rawLookup st.raw "variants" = some v from hraw, hrun]
          · rw [show rawLookup st.raw "variants" = some v from hraw]
            exact Or.inr rfl
        rw [hacc] at hfinal ⊢
        have hpres := (foldl_validateStep_preserve t (some mvs) ks
          (⟨⟨rawErase st.raw "variants",
             st.cache ++ [("variants", some v)]⟩, excs⟩)
          "variants" hnotin).1
        show cacheLookup ((ks.foldl (validateStep t (some mvs))
            (⟨⟨rawErase st.raw "variants",
               st.cache ++ [("variants", some v)]⟩, excs⟩)).1.cache)
            "variants" = some (some v)
        rw [hpres]
        exact cacheLookup_append_self _ _ _ hcache
    · have hk : k ≠ "variants" := fun h => hnotin (h ▸ hmem')
      simp only [List.foldl_cons] at hfinal ⊢
      obtain ⟨hc1, hr1⟩ :=
        validateStep_preserve t (some mvs) s k "variants" hk
      exact ih _ v hmem' (List.nodup_cons.mp hnodup).2
        (hr1.trans hraw) (hc1.trans hcache) hfinal

/-- A loop run that returns a record started with no exceptions,
collected none, and returned the final state. -/
theorem fromRawLoop_ok (t : SchemaTables) (mv : Option String)
    (st1 : RecState) (excs1 : List InvalidMeta) (r : MetadataRecord)
    (h : fromRawLoop t mv st1 excs1 = .ok r) :
    excs1 = [] ∧
    (((dedupList (rawKeys st1.raw ++ requiredAttrs)).filter
        (fun k => k ≠ "metadata_version")).foldl
        (validateStep t mv) (st1, excs1)).2 = [] ∧
    r = ⟨(((dedupList (rawKeys st1.raw ++ requiredAttrs)).filter
        (fun k => k ≠ "metadata_version")).foldl
        (validateStep t mv) (st1, excs1)).1.raw,
      (((dedupList (rawKeys st1.raw ++ requiredAttrs)).filter
        (fun k => k ≠ "metadata_version")).foldl
        (validateStep t mv) (st1, excs1)).1.cache⟩ := by
  simp only [fromRawLoop] at h
  split_ifs at h with hemp
  · have hrun : (((dedupList (rawKeys st1.raw ++ requiredAttrs)).filter
        (fun k => k ≠ "metadata_version")).foldl
        (validateStep t mv) (st1, excs1)).2 = [] := by
      simpa [List.isEmpty_iff] using hemp
    obtain ⟨l, hl⟩ := foldl_validateStep_excs t mv
      ((dedupList (rawKeys st1.raw ++ requiredAttrs)).filter
        (fun k => k ≠ "metadata_version")) (st1, excs1)
    have hexcs : excs1 = [] := by
      rw [hl] at hrun
      exact (List.append_eq_nil.mp hrun).1
    cases h
    exact ⟨hexcs, hrun, rfl⟩

/-- A successful validating `from_raw` run accessed a valid metadata
version string and ran the field loop to a successful finish. -/
theorem fromRawValidated_ok_unfold (t : SchemaTables) (data : RawMap)
    (r : MetadataRecord) (hok : fromRawValidated t data = .ok r) :
    ∃ (s : String) (st1 : RecState),
      accessField t ⟨data, []⟩ "metadata_version" = .ok (st1, some (.str s)) ∧
      fromRawLoop t (some s) st1 [] = .ok r := by
  unfold fromRawValidated at hok
  rcases hacc : accessField t ⟨data, []⟩ "metadata_version" with e | p
  · rw [hacc] at hok
    have hok' : fromRawLoop t none ⟨data, []⟩ [e] = .ok r := hok
    have := (fromRawLoop_ok t none ⟨data, []⟩ [e] r hok').1
    cases this
  · obtain ⟨st1, v⟩ := p
    rw [hacc] at hok
    obtain ⟨s, rfl⟩ := accessField_mv_str t _ st1 v hacc
    have hok' : fromRawLoop t (some s) st1 [] = .ok r := hok
    exact ⟨s, st1, rfl, hok'⟩

/-- On a successful validating `from_raw` run over data containing a
"variants" entry, the returned record caches that entry's value
unchanged. -/
theorem from_raw_ok_variants_cached (t : SchemaTables) (data : RawMap)
    (r : MetadataRecord) (v : RawValue)
    (hok : Metadata.from_raw t data true = .ok r)
    (hv : rawLookup data "variants" = some v) :
    cacheLookup r.cache "variants" = some (some v) := by
  obtain ⟨s, st1, hacc, hloop⟩ := fromRawValidated_ok_unfold t data r hok
  obtain ⟨hraw1, hcache1⟩ := accessField_ok_shape t _ _ _ _ hacc
  obtain ⟨_, hrun, hr⟩ := fromRawLoop_ok t (some s) st1 [] r hloop
  have hv1 : rawLookup st1.raw "variants" = some v := by
    rw [hraw1]
    rw [rawLookup_erase_ne _ _ _ (by decide)]
    exact hv
  have hc1 : cacheLookup st1.cache "variants" = none := by
    rw [hcache1]
    rfl
  have hmem : "variants" ∈
      (dedupList (rawKeys st1.raw ++ requiredAttrs)).filter
        (fun k => k ≠ "metadata_version") := by
    rw [List.mem_filter]
    refine ⟨(mem_dedupList _ _).mpr
      (List.mem_append_left _ (rawLookup_mem_keys _ _ _ hv1)), by decide⟩
  have hnodup : ((dedupList (rawKeys st1.raw ++ requiredAttrs)).filter
      (fun k => k ≠ "metadata_version")).Nodup :=
    (dedupList_nodup _).filter _
  have := foldl_validateStep_variants t s _ (st1, []) v hmem hnodup
    hv1 hc1 hrun
  rw [hr]
  exact this

/-- On a successful validating `from_raw` run over data with no
"variants" entry, the returned record has no "variants" entry in its
cache or its remaining raw mapping. -/
theorem from_raw_ok_variants_absent (t : SchemaTables) (data : RawMap)
    (r : MetadataRecord)
    (hok : Metadata.from_raw t data true = .ok r)
    (hv : rawLookup data "variants" = none) :
    cacheLookup r.cache "variants" = none ∧
    rawLookup r.raw "variants" = none := by
  obtain ⟨s, st1, hacc, hloop⟩ := fromRawValidated_ok_unfold t data r hok
  obtain ⟨hraw1, hcache1⟩ := accessField_ok_shape t _ _ _ _ hacc
  obtain ⟨_, _, hr⟩ := fromRawLoop_ok t (some s) st1 [] r hloop
  have hv1 : rawLookup st1.raw "variants" = none := by
    rw [hraw1, rawLookup_erase_ne _ _ _ (by decide)]
    exact hv
  have hc1 : cacheLookup st1.cache "variants" = none := by
    rw [hcache1]
    rfl
  have hnotmem : "variants" ∉
      (dedupList (rawKeys st1.raw ++ requiredAttrs)).filter
        (fun k => k ≠ "metadata_version") := by
    intro hmem
    have hmem' := (List.mem_filter.mp hmem).1
    rcases List.mem_append.mp ((mem_dedupList _ _).mp hmem') with h | h
    · obtain ⟨w, hw⟩ := mem_rawKeys_lookup _ _ h
      rw [hv1] at hw
      cases hw
    · revert h
      decide
  obtain ⟨hcpres, hrpres⟩ := foldl_validateStep_preserve t (some s)
    ((dedupList (rawKeys st1.raw ++ requiredAttrs)).filter
      (fun k => k ≠ "metadata_version")) (st1, []) "variants" hnotmem
  rw [hr]
  exact ⟨hcpres.trans hc1, hrpres.trans hv1⟩

/-- A successful validating `fromEmailMsg` run is a successful
validating `from_raw` run on the parsed raw mapping. -/
theorem fromEmailMsg_ok_elim (t : SchemaTables) (msg : EmailMessage)
    (r : MetadataRecord)
    (hok : Metadata.fromEmailMsg t msg true = .ok r) :
    Metadata.from_raw t (parse_email t msg).1 true = .ok r := by
  simp only [Metadata.fromEmailMsg] at hok
  rcases hpe : parse_email t msg with ⟨raw, unp⟩
  rw [hpe] at hok
  have hok' : (if True ∧ ¬ unp.isEmpty = true then
      (Except.error (.exceptionGroup "unparsed"
        (unp.map (fun p =>
          if (assocFind t.emailToRaw p.1).isSome then
            InvalidMeta.mk p.1 "has invalid data"
          else
            InvalidMeta.mk p.1 "unrecognized field"))) :
        Except MetaErr MetadataRecord)
      else
        match Metadata.from_raw t raw true with
        | .ok r' => .ok r'
        | .error (.exceptionGroup _ es) =>
          .error (.exceptionGroup "invalid or unparsed metadata" es)
        | .error e => .error e) = .ok r := hok
  split_ifs at hok' with hcond
  rcases hfr : Metadata.from_raw t raw true with e | r'
  · rw [hfr] at hok'
    cases e with
    | noMetadata =>
      have h2 : (Except.error MetaErr.noMetadata :
          Except MetaErr MetadataRecord) = .ok r := hok'
      cases h2
    | exceptionGroup m es =>
      have h2 : (Except.error (.exceptionGroup
          "invalid or unparsed metadata" es) :
          Except MetaErr MetadataRecord) = .ok r := hok'
      cases h2
    | fileNotFound m =>
      have h2 : (Except.error (MetaErr.fileNotFound m) :
          Except MetaErr MetadataRecord) = .ok r := hok'
      cases h2
  · rw [hfr] at hok'
    have h2 : (Except.ok r' : Except MetaErr MetadataRecord) = .ok r := hok'
    cases h2
    rfl

/-! ## Claims -/

/-- C1, counterexample: the claim says an archive whose only metadata
entry ends in PKG-INFO is located by the extraction pipeline; on the
code, `wheel_to_metadata_dict` on such an archive reports not-found. -/
theorem c1_pkg_info_only_is_not_found :
    wheel_to_metadata_dict c1wheel =
      .error (.fileNotFound "No METADATA file found in this wheel package.") := by
  rfl

/-- C1, amended: the metadata-entry location step treats an entry as a
match exactly when its name ends with the suffix METADATA; an archive
none of whose entry names end in METADATA — in particular one whose
only metadata entry ends in PKG-INFO — is reported not-found by the
extraction pipeline. -/
theorem c1_amended_metadata_suffix_only (whl : Wheel)
    (h : ∀ n ∈ whl.namelist, ¬ endsWithStr n "METADATA") :
    wheel_to_metadata_dict whl =
      .error (.fileNotFound "No METADATA file found in this wheel package.") := by
  have hfind : whl.namelist.find? (fun f => endsWithStr f "METADATA") = none :=
    List.find?_eq_none.mpr (fun n hn => by simpa using h n hn)
  unfold wheel_to_metadata_dict
  rw [hfind]

/-- C1, witness: the amended statement applied to the archive whose
only metadata entry ends in PKG-INFO. -/
theorem c1_amended_witness :
    wheel_to_metadata_dict c1wheel =
      .error (.fileNotFound "No METADATA file found in this wheel package.") :=
  c1_amended_metadata_suffix_only c1wheel (by decide)

/-- C2, code evaluated at the failing input: for a wheel whose
METADATA entry is the well-formed block with Name dummy-project and
Version 0.0.1.dev1, `wheel_to_metadata_dict` returns the empty mapping
(the validating parse consumes every entry of `_raw` into the
attribute cache), so the returned mapping contains neither a "name"
nor a "version" key, contradicting the claim. -/
theorem c2_code_returns_empty_mapping :
    wheel_to_metadata_dict c2wheel = .ok [] ∧
    rawLookup [] "name" = none ∧ rawLookup [] "version" = none :=
  ⟨rfl, rfl, rfl⟩

/-- C3: for every archive none of whose entry names end in METADATA or
in PKG-INFO, `wheel_to_metadata_dict` fails with the
FileNotFoundError kind (and hence returns no default or empty
mapping). -/
theorem c3_no_metadata_entry_fails_not_found (whl : Wheel)
    (h : ∀ n ∈ whl.namelist,
      ¬ endsWithStr n "METADATA" ∧ ¬ endsWithStr n "PKG-INFO") :
    wheel_to_metadata_dict whl =
      .error (.fileNotFound "No METADATA file found in this wheel package.") := by
  have hfind : whl.namelist.find? (fun f => endsWithStr f "METADATA") = none :=
    List.find?_eq_none.mpr (fun n hn => by simpa using (h n hn).1)
  unfold wheel_to_metadata_dict
  rw [hfind]

/-- C3, witness: the statement applied to a wheel with no metadata
entry at all. -/
theorem c3_witness :
    wheel_to_metadata_dict c3wheel =
      .error (.fileNotFound "No METADATA file found in this wheel package.") :=
  c3_no_metadata_entry_fails_not_found c3wheel (by decide)

/-- C4: `parse_metadata_file_content` applied to absent content (None)
raises `NoMetadataError`; being a function of its argument alone, it
does so on every call regardless of any other state, and never returns
a record for absent content. -/
theorem c4_parse_none_raises_no_metadata :
    parse_metadata_file_content none = .error .noMetadata := rfl

/-- C5: for metadata content whose variant header lines are exactly
`variant: a` and `variant: b` in that order, the record returned by
`parse_metadata_file_content` has its variants field equal to the
ordered sequence ["a", "b"]. -/
theorem c5_variant_headers_ordered (content : String) (r : MetadataRecord)
    (hv : getAll (parseEmailText content) "variant" = ["a", "b"])
    (hok : parse_metadata_file_content (some content) = .ok r) :
    r.variants = some (.list ["a", "b"]) := by
  have hok' : Metadata.fromEmailMsg importedTables (parseEmailText content)
      true = .ok r := hok
  have hfr := fromEmailMsg_ok_elim _ _ _ hok'
  have hmem : "variant" ∈ dedupKeysLower (parseEmailText content).headers := by
    rw [mem_dedupKeysLower]
    cases hfl : (parseEmailText content).headers.filter
        (fun hd => lowerStr hd.1 == "variant") with
    | nil =>
      exfalso
      unfold getAll at hv
      rw [hfl] at hv
      cases hv
    | cons hd tl =>
      have hmemf : hd ∈ (parseEmailText content).headers.filter
          (fun hd => lowerStr hd.1 == "variant") := by
        rw [hfl]
        exact List.mem_cons_self _ _
      have hm := List.mem_filter.mp hmemf
      exact ⟨hd, hm.1, by simpa using hm.2⟩
  have hraw := parse_email_variants_present (parseEmailText content) hmem
  rw [hv] at hraw
  have hc := from_raw_ok_variants_cached importedTables _ r _ hfr hraw
  unfold MetadataRecord.variants
  rw [hc]

/-- C5, witness: the statement applied to the concrete content with a
`variant: a` and `variant: b` header pair. -/
theorem c5_witness : c5record.variants = some (.list ["a", "b"]) :=
  c5_variant_headers_ordered c5content c5record (by decide) (by rfl)

/-- C6: for metadata content containing no variant header line, the
record returned by `parse_metadata_file_content` has an absent (None)
variants field, not an empty sequence. -/
theorem c6_no_variant_header_yields_none (content : String)
    (r : MetadataRecord)
    (hv : ∀ hd ∈ (parseEmailText content).headers, lowerStr hd.1 ≠ "variant")
    (hok : parse_metadata_file_content (some content) = .ok r) :
    r.variants = none := by
  have hok' : Metadata.fromEmailMsg importedTables (parseEmailText content)
      true = .ok r := hok
  have hfr := fromEmailMsg_ok_elim _ _ _ hok'
  have hnot : "variant" ∉ dedupKeysLower (parseEmailText content).headers := by
    rw [mem_dedupKeysLower]
    rintro ⟨hd, hhd, heq⟩
    exact hv hd hhd heq
  have hraw := parse_email_variants_absent _ hnot
  obtain ⟨hcache, hraw'⟩ :=
    from_raw_ok_variants_absent importedTables _ r hfr hraw
  have hv2 : r.variants = rawLookup r.raw "variants" := by
    unfold MetadataRecord.variants
    rw [hcache]
  rw [hv2]
  exact hraw'

/-- C6, witness: the statement applied to the concrete content without
a variant header. -/
theorem c6_witness : c6record.variants = none :=
  c6_no_variant_header_yields_none c6content c6record (by decide) (by rfl)

/-- C7: for every metadata content containing a header name not
defined in the schema, `parse_metadata_file_content` fails with the
unknown-field validation group; unknown fields never yield a
successfully parsed record. -/
theorem c7_unknown_field_rejected (content : String)
    (h : ∃ hd ∈ (parseEmailText content).headers,
      assocFind importedTables.emailToRaw (lowerStr hd.1) = none) :
    parse_metadata_file_content (some content) =
      .error (.exceptionGroup "unparsed"
        ((parse_email importedTables (parseEmailText content)).2.map
          (fun p =>
            if (assocFind importedTables.emailToRaw p.1).isSome then
              InvalidMeta.mk p.1 "has invalid data"
            else
              InvalidMeta.mk p.1 "unrecognized field"))) := by
  obtain ⟨hd, hhd, hfind⟩ := h
  have hmem : ∃ n ∈ dedupKeysLower (parseEmailText content).headers,
      assocFind importedTables.emailToRaw n = none :=
    ⟨lowerStr hd.1, (mem_dedupKeysLower _ _).mpr ⟨hd, hhd, rfl⟩, hfind⟩
  have hne := parse_email_unparsed_ne _ hmem
  show Metadata.fromEmailMsg importedTables (parseEmailText content) true = _
  rcases hpe : parse_email importedTables (parseEmailText content)
    with ⟨raw, unp⟩
  rw [hpe] at hne
  simp only [Metadata.fromEmailMsg, hpe]
  rw [if_pos ⟨trivial, fun hie => hne (by simpa [List.isEmpty_iff] using hie)⟩]

/-- C7, witness: the statement applied to content with the unknown
header Unknown-Field. -/
theorem c7_witness :
    parse_metadata_file_content (some c7content) =
      .error (.exceptionGroup "unparsed"
        ((parse_email importedTables (parseEmailText c7content)).2.map
          (fun p =>
            if (assocFind importedTables.emailToRaw p.1).isSome then
              InvalidMeta.mk p.1 "has invalid data"
            else
              InvalidMeta.mk p.1 "unrecognized field"))) :=
  c7_unknown_field_rejected c7content (by decide)

/-- C8, code evaluated at the failing input: `wheel_to_metadata_dict`
succeeds on a well-formed wheel but returns the empty mapping, and
feeding that mapping back through the schema's validation
(`Metadata.from_raw` with validation) raises the required-field
exception group — the claimed round-trip fails on the code. -/
theorem c8_roundtrip_validation_fails :
    wheel_to_metadata_dict c8wheel = .ok [] ∧
    Metadata.from_raw importedTables [] true =
      .error (.exceptionGroup "invalid metadata"
        [⟨"metadata-version", "is not a valid metadata version"⟩,
         ⟨"name", "is a required field"⟩,
         ⟨"version", "is a required field"⟩]) :=
  ⟨rfl, rfl⟩

/-- C9: parsing empty bytes (present but empty content) takes the
parse-and-validate path and fails with the malformed-metadata
validation group; it does not raise `NoMetadataError`. -/
theorem c9_empty_bytes_validation_error :
    parse_metadata_file_content (some "") =
      .error (.exceptionGroup "invalid or unparsed metadata"
        [⟨"metadata-version", "is not a valid metadata version"⟩,
         ⟨"name", "is a required field"⟩,
         ⟨"version", "is a required field"⟩]) ∧
    parse_metadata_file_content (some "") ≠ .error .noMetadata := by
  refine ⟨rfl, fun hcontra => ?_⟩
  have h2 : (Except.error MetaErr.noMetadata :
      Except MetaErr MetadataRecord) =
      .error (.exceptionGroup "invalid or unparsed metadata"
        [⟨"metadata-version", "is not a valid metadata version"⟩,
         ⟨"name", "is a required field"⟩,
         ⟨"version", "is a required field"⟩]) :=
    hcontra.symm.trans (by rfl)
  exact MetaErr.noConfusion (Except.error.inj h2)

/-- C10: importing the module mutates the process-wide tables of
`packaging.metadata` exactly by adding "variants" to the list fields
and the variant/variants pair to the two name mappings (entries absent
from the baseline); the exported operations are functions of those
import-time tables, so every parse in the process — the repository's
own calls and direct calls into the library alike — reads the same
extended schema and mutates nothing further. -/
theorem c10_import_patch_establishes_schema :
    importedTables.listFields = baselineTables.listFields ++ ["variants"] ∧
    importedTables.emailToRaw =
      baselineTables.emailToRaw ++ [("variant", "variants")] ∧
    importedTables.rawToEmail =
      baselineTables.rawToEmail ++ [("variants", "variant")] ∧
    baselineTables.listFields.contains "variants" = false ∧
    assocFind baselineTables.emailToRaw "variant" = none ∧
    assocFind baselineTables.rawToEmail "variants" = none ∧
    importedTables.listFields.contains "variants" = true ∧
    assocFind importedTables.emailToRaw "variant" = some "variants" ∧
    assocFind importedTables.rawToEmail "variants" = some "variant" ∧
    (∀ content : String, parse_metadata_file_content (some content) =
      Metadata.from_email importedTables content true) ∧
    (∀ msg : EmailMessage, parse_email importedTables msg =
      parse_email (applyImportPatch baselineTables) msg) :=
  ⟨rfl, rfl, rfl, by decide, by decide, by decide, by decide, by decide,
   by decide, fun _ => rfl, fun _ => rfl⟩

end Mockhouse
